import Mathlib

/-
  Verification of the djarg wizard core (djarg/views.py) and the form
  adapter (djarg/forms.py).

  The embedding models Python dictionaries of cleaned form data as
  insertion-ordered association lists over string keys with opaque values
  (values are abstracted as naturals).  Steps are their string identifiers,
  form classes are abstracted as naturals.  The mutable per-instance caches
  (`_condition_cache`, `_cleaned_step_data_cache`) are threaded explicitly
  through the functions, and each function returns the updated caches.
  External collaborators (formtools `super().get_cleaned_data_for_step`,
  `super().render_done`, python-args validator invocation) are modelled as
  parameters of the state.
-/

namespace Djarg

abbrev Step := String

abbrev Value := Nat

abbrev FormClass := Nat

/-- A Python dict of cleaned data: insertion-ordered association list. -/
abbrev Dict := List (String × Value)

/-- First-match lookup in an association list (Python dict lookup). -/
def alookup {α : Type} : List (String × α) → String → Option α
  | [], _ => none
  | (k, v) :: rest, key => if k = key then some v else alookup rest key

/-- Python `d[k] = v`: replace the value in place if the key is present,
otherwise append the new key at the end (insertion order). -/
def dset : Dict → String → Value → Dict
  | [], k, v => [(k, v)]
  | (k', v') :: rest, k, v =>
      if k' = k then (k', v) :: rest else (k', v') :: dset rest k v

/-- Python `d.update(other)` / `{**d, **other}`: keys of `other` override
keys of `d`, new keys are appended in order. -/
def dupdate (d other : Dict) : Dict :=
  other.foldl (fun acc kv => dset acc kv.1 kv.2) d

/-- A condition value from `condition_dict` (djarg/views.py line 234).
`const` is a non-callable value (its truthiness); `callable` is a plain
callable, invoked as `condition(self)`; `argFunc` is an `arg.func` lazy
condition, loaded against `{**default_args, **args_so_far}`. -/
inductive Condition (σ : Type) where
  | const (b : Bool)
  | callable (f : σ → Bool)
  | argFunc (f : Dict → Bool)

/-- The fixed (per request) state of a `WizardView` instance.
`clean_step` is the external `super().get_cleaned_data_for_step`: the
framework-level clean of the persisted data of a step, `none` meaning the
step has not validated.  `self_obj` is the instance object handed to plain
callable conditions. -/
structure Wizard (σ : Type) where
  form_list : List (Step × FormClass)
  condition_dict : List (Step × Condition σ)
  clean_step : Step → Option Dict
  default_args : Dict
  self_obj : σ

/-- The `_condition_cache` instance attribute: step to cached truthiness. -/
abbrev CondCache := List (Step × Bool)

/-- The `_cleaned_step_data_cache` instance attribute: step to cached
cleaned data; a cached `none` records a not-validated outcome. -/
abbrev CleanCache := List (Step × Option Dict)

/-- `WizardView.get_cleaned_data_for_step` (views.py lines 271-281):
return the cached outcome when present, otherwise call the framework
clean once and cache the outcome, `none` included.  The third component
counts the underlying framework clean invocations this call performed. -/
def get_cleaned_data_for_step {σ : Type} (w : Wizard σ) (cache : CleanCache)
    (step : Step) : Option Dict × CleanCache × Nat :=
  match alookup cache step with
  | some cached => (cached, cache, 0)
  | none =>
      let cleaned := w.clean_step step
      (cleaned, cache ++ [(step, cleaned)], 1)

/-- Loop body of `WizardView.get_cleaned_data` (views.py lines 283-297). -/
def get_cleaned_data_go {σ : Type} (w : Wizard σ) (acc : Dict) (cache : CleanCache) :
    List Step → Option Dict × CleanCache
  | [] => (some acc, cache)
  | step :: rest =>
      let r := get_cleaned_data_for_step w cache step
      match r.1 with
      | none => (none, r.2.1)
      | some d => get_cleaned_data_go w (dupdate acc d) r.2.1 rest

/-- `WizardView.get_cleaned_data(*steps)`: fold the per-step cleaned data
in order, returning `none` as soon as a step has not validated, otherwise
the merged dict (later steps override earlier ones). -/
def get_cleaned_data {σ : Type} (w : Wizard σ) (cache : CleanCache)
    (steps : List Step) : Option Dict × CleanCache :=
  get_cleaned_data_go w [] cache steps

/-- Resolution of one uncached condition (views.py lines 234-250).
`included` is the `form_list` accumulated so far in this call. -/
def resolve_condition {σ : Type} (w : Wizard σ) (included : List (Step × FormClass))
    (cache : CleanCache) : Condition σ → Bool × CleanCache
  | .const b => (b, cache)
  | .callable f => (f w.self_obj, cache)
  | .argFunc f =>
      let r := get_cleaned_data w cache (included.map Prod.fst)
      match r.1 with
      | some args_so_far => (f (dupdate w.default_args args_so_far), r.2)
      | none => (true, r.2)

/-- Result of one `get_form_list` call: the returned ordered form list and
the two instance caches as mutated by the call.  `resolved` records which
steps took the uncached branch (views.py line 233), i.e. had their
condition resolved during this call. -/
structure FormListResult where
  form_list : List (Step × FormClass)
  condition_cache : CondCache
  cleaned_cache : CleanCache
  resolved : List Step
deriving Repr

/-- The loop of `WizardView.get_form_list` (views.py lines 226-257):
iterate the declared steps, break at `until`, consult the condition cache,
resolve and cache uncached conditions, and collect steps whose cached
truthiness holds. -/
def get_form_list_go {σ : Type} (w : Wizard σ) (until_ : Option Step) :
    List (Step × FormClass) → List (Step × FormClass) → CondCache → CleanCache →
    List Step → FormListResult
  | [], fl, condc, cleanc, res => ⟨fl, condc, cleanc, res⟩
  | (step, form_class) :: rest, fl, condc, cleanc, res =>
      if until_ = some step then ⟨fl, condc, cleanc, res⟩
      else
        match alookup condc step with
        | some b =>
            get_form_list_go w until_ rest
              (if b then fl ++ [(step, form_class)] else fl) condc cleanc res
        | none =>
            let cond := (alookup w.condition_dict step).getD (Condition.const true)
            let r := resolve_condition w fl cleanc cond
            get_form_list_go w until_ rest
              (if r.1 then fl ++ [(step, form_class)] else fl)
              (condc ++ [(step, r.1)]) r.2 (res ++ [step])

/-- `WizardView.get_form_list(until=...)`, starting from the instance
caches as they stand when the call is made. -/
def get_form_list {σ : Type} (w : Wizard σ) (condc : CondCache) (cleanc : CleanCache)
    (until_ : Option Step) : FormListResult :=
  get_form_list_go w until_ w.form_list [] condc cleanc []

/-- The declared steps strictly before the first occurrence of the stop
step: the portion of the declaration list the `get_form_list` loop walks. -/
def stepsBefore (until_ : Option Step) : List (Step × FormClass) → List (Step × FormClass)
  | [] => []
  | p :: rest => if until_ = some p.1 then [] else p :: stepsBefore until_ rest

/-- The cleaned data a step effectively has, given the cache state: the
cached outcome when present, otherwise the framework clean outcome. -/
def cleaned_for {σ : Type} (w : Wizard σ) (cache : CleanCache) (step : Step) : Option Dict :=
  match alookup cache step with
  | some cached => cached
  | none => w.clean_step step

/- ----------------------------------------------------------------------
   djarg/forms.py
   ---------------------------------------------------------------------- -/

/-- An exception: a Django ValidationError (with the message payload and
an optional `__cause__`), or any other exception with its payload. -/
inductive Err where
  | validation (msg : String) (cause : Option Err)
  | other (msg : String)

/-- `isinstance(exc, ValidationError)`. -/
def Err.isValidation : Err → Bool
  | .validation _ _ => true
  | .other _ => false

/-- The message payload of an exception. -/
def Err.msg : Err → String
  | .validation m _ => m
  | .other m => m

/-- `_only_raise_validation_error` (forms.py lines 8-20): run the body; a
ValidationError passes through unchanged, any other exception is re-raised
as `ValidationError(exc) from exc`, the original kept as the cause. -/
def only_raise_validation_error {α : Type} (body : Except Err α) : Except Err α :=
  match body with
  | .ok a => .ok a
  | .error e =>
      if e.isValidation then .error e
      else .error (.validation e.msg (some e))

/-- A python-args wrapped function, as the form adapter sees it:
`func.partial.pre_func(**kwargs)` runs the validators of the function
against the given keyword arguments. -/
structure ArgFunc where
  pre_func : Dict → Except Err Unit

/-- `get_field_validator` (forms.py lines 23-38): validate a single field
value by invoking the function validators with only that argument, inside
`_only_raise_validation_error`. -/
def get_field_validator (func : ArgFunc) (field_label : String) : Value → Except Err Unit :=
  fun val => only_raise_validation_error (func.pre_func [(field_label, val)])

/-- The clean method installed by `get_form_clean` (forms.py lines 41-57):
run the original clean, invoke the function validators against
`{**default_args, **cleaned_data}` inside `_only_raise_validation_error`,
and return the original cleaned data unchanged. -/
def get_form_clean (func : ArgFunc) (old_clean : Except Err Dict)
    (default_args : Dict) : Except Err Dict :=
  match old_clean with
  | .error e => .error e
  | .ok cleaned_data =>
      match only_raise_validation_error (func.pre_func (dupdate default_args cleaned_data)) with
      | .error e => .error e
      | .ok _ => .ok cleaned_data

/- ----------------------------------------------------------------------
   WizardView.render_done (views.py lines 319-333)
   ---------------------------------------------------------------------- -/

/-- A Django form as `render_done` touches it: its list of form-level
(non-field) errors; `form.add_error(None, exc)` appends to it. -/
structure DjForm where
  non_field_errors : List Err

/-- The outcome `render_done` produces when it does not raise. -/
inductive WizardResponse where
  | success (response : Nat)
  | revalidationFailure (step : Step) (form : DjForm)

/-- `WizardView.render_done`: delegate to the framework `render_done`
(which revalidates every form, calls `done()` and thus runs the bound
function); on an exception, either re-raise it (`raise_run_errors`) or
attach it as a non-field error on the form and render the revalidation
failure for the current step. -/
def render_done (raise_run_errors : Bool) (current_step : Step) (form : DjForm)
    (super_render_done : Except Err Nat) : Except Err WizardResponse :=
  match super_render_done with
  | .ok resp => .ok (.success resp)
  | .error exc =>
      if raise_run_errors then .error exc
      else .ok (.revalidationFailure current_step ⟨form.non_field_errors ++ [exc]⟩)

/- ----------------------------------------------------------------------
   Concrete instances used by the witnesses and counterexamples
   ---------------------------------------------------------------------- -/

/-- Two declared steps; step B has an `arg.func` condition that would
evaluate to false; step A never validates. -/
def wizFailOpen : Wizard Unit :=
  { form_list := [("A", 0), ("B", 1)]
    condition_dict := [("B", Condition.argFunc (fun _ => false))]
    clean_step := fun _ => none
    default_args := []
    self_obj := () }

/-- Step A cleans to x=1, step B cleans to x=2, y=3. -/
def wizMerge : Wizard Unit :=
  { form_list := [("A", 0), ("B", 1)]
    condition_dict := []
    clean_step := fun s =>
      if s = "A" then some [("x", 1)]
      else if s = "B" then some [("x", 2), ("y", 3)]
      else none
    default_args := []
    self_obj := () }

/-- Two unconditional steps, nothing validated yet. -/
def wizPlain : Wizard Unit :=
  { form_list := [("A", 0), ("B", 1)]
    condition_dict := []
    clean_step := fun _ => none
    default_args := []
    self_obj := () }

/-- Step B has a plain callable condition reading the self object. -/
def wizCallable : Wizard Bool :=
  { form_list := [("A", 0), ("B", 1)]
    condition_dict := [("B", Condition.callable (fun b => b))]
    clean_step := fun _ => none
    default_args := []
    self_obj := false }

/-- A function whose validators always fail with a non-validation error. -/
def funcBoom : ArgFunc :=
  { pre_func := fun _ => .error (.other "boom") }

/-- A function whose validators always pass. -/
def funcOk : ArgFunc :=
  { pre_func := fun _ => .ok () }

/- ----------------------------------------------------------------------
   Helper lemmas: association-list lookup and the cleaned-data cache
   ---------------------------------------------------------------------- -/

theorem alookup_append_some {α : Type} {c1 : List (String × α)} (c2 : List (String × α))
    {k : String} {v : α} (h : alookup c1 k = some v) :
    alookup (c1 ++ c2) k = some v := by
  induction c1 with
  | nil => simp [alookup] at h
  | cons p rest ih =>
      obtain ⟨k', v'⟩ := p
      simp only [alookup, List.cons_append] at h ⊢
      by_cases hk : k' = k
      · simpa [hk] using h
      · simp only [if_neg hk] at h ⊢
        exact ih h

theorem alookup_append_none {α : Type} {c1 : List (String × α)} (c2 : List (String × α))
    {k : String} (h : alookup c1 k = none) :
    alookup (c1 ++ c2) k = alookup c2 k := by
  induction c1 with
  | nil => simp
  | cons p rest ih =>
      obtain ⟨k', v'⟩ := p
      simp only [alookup, List.cons_append] at h ⊢
      by_cases hk : k' = k
      · simp [hk] at h
      · simp only [if_neg hk] at h ⊢
        exact ih h

theorem alookup_append_none_left {α : Type} {c1 c2 : List (String × α)} {k : String}
    (h : alookup (c1 ++ c2) k = none) : alookup c1 k = none := by
  cases hc : alookup c1 k with
  | none => rfl
  | some v => rw [alookup_append_some c2 hc] at h; exact absurd h (by simp)

theorem get_cleaned_data_for_step_fst {σ : Type} (w : Wizard σ) (cache : CleanCache)
    (step : Step) :
    (get_cleaned_data_for_step w cache step).1 = cleaned_for w cache step := by
  unfold get_cleaned_data_for_step cleaned_for
  cases alookup cache step <;> rfl

theorem cleaned_for_after_step {σ : Type} (w : Wizard σ) (cache : CleanCache)
    (step t : Step) :
    cleaned_for w (get_cleaned_data_for_step w cache step).2.1 t = cleaned_for w cache t := by
  unfold get_cleaned_data_for_step
  cases h : alookup cache step with
  | some cached => rfl
  | none =>
      unfold cleaned_for
      cases hct : alookup cache t with
      | some cd => rw [alookup_append_some _ hct]
      | none =>
          rw [alookup_append_none _ hct]
          by_cases ht : step = t
          · subst ht
            simp [alookup, h]
          · simp [alookup, ht]

theorem get_cleaned_data_go_incomplete {σ : Type} (w : Wizard σ) :
    ∀ (steps : List Step) (acc : Dict) (cache : CleanCache),
      (∃ s ∈ steps, cleaned_for w cache s = none) →
      (get_cleaned_data_go w acc cache steps).1 = none := by
  intro steps
  induction steps with
  | nil => intro acc cache h; simp at h
  | cons s rest ih =>
      intro acc cache h
      simp only [get_cleaned_data_go]
      cases hr : (get_cleaned_data_for_step w cache s).1 with
      | none => rfl
      | some d =>
          rw [get_cleaned_data_for_step_fst] at hr
          obtain ⟨s', hs', hnone⟩ := h
          rcases List.mem_cons.mp hs' with h1 | h1
          · subst h1; rw [hnone] at hr; exact absurd hr (by simp)
          · exact ih (dupdate acc d) _ ⟨s', h1, by
              rw [cleaned_for_after_step]; exact hnone⟩

theorem get_cleaned_data_go_complete {σ : Type} (w : Wizard σ) :
    ∀ (steps : List Step) (acc : Dict) (cache : CleanCache),
      (∀ s ∈ steps, cleaned_for w cache s ≠ none) →
      (get_cleaned_data_go w acc cache steps).1
        = some (steps.foldl (fun a s => dupdate a ((cleaned_for w cache s).getD [])) acc) := by
  intro steps
  induction steps with
  | nil => intro acc cache _; simp [get_cleaned_data_go]
  | cons s rest ih =>
      intro acc cache h
      have hs : cleaned_for w cache s ≠ none := h s (List.mem_cons_self s rest)
      cases hd : cleaned_for w cache s with
      | none => exact absurd hd hs
      | some d =>
          simp only [get_cleaned_data_go]
          cases hr : (get_cleaned_data_for_step w cache s).1 with
          | none =>
              rw [get_cleaned_data_for_step_fst, hd] at hr
              exact absurd hr (by simp)
          | some d' =>
              rw [get_cleaned_data_for_step_fst, hd] at hr
              obtain rfl : d = d' := by injection hr
              have hrest : ∀ t ∈ rest,
                  cleaned_for w (get_cleaned_data_for_step w cache s).2.1 t ≠ none := by
                intro t ht
                rw [cleaned_for_after_step]
                exact h t (List.mem_cons_of_mem s ht)
              rw [ih (dupdate acc d) _ hrest]
              congr 1
              rw [List.foldl_cons, hd]
              simp only [Option.getD_some]
              exact List.foldl_ext _ _ (dupdate acc d)
                (fun a t ht => by rw [cleaned_for_after_step])

/- ----------------------------------------------------------------------
   Helper lemmas: the get_form_list loop
   ---------------------------------------------------------------------- -/

theorem get_form_list_go_mem_mono {σ : Type} (w : Wizard σ) (u : Option Step) :
    ∀ (rem fl : List (Step × FormClass)) (condc : CondCache) (cleanc : CleanCache)
      (res : List Step) (p : Step × FormClass), p ∈ fl →
      p ∈ (get_form_list_go w u rem fl condc cleanc res).form_list := by
  intro rem
  induction rem with
  | nil => intro fl _ _ _ p hp; simpa [get_form_list_go] using hp
  | cons q rest ih =>
      intro fl condc cleanc res p hp
      obtain ⟨step, fc⟩ := q
      simp only [get_form_list_go]
      split
      · simpa using hp
      · cases hc : alookup condc step with
        | some b =>
            apply ih
            cases b <;> simp [hp]
        | none =>
            apply ih
            split <;> simp [hp]

theorem get_form_list_go_cond_mono {σ : Type} (w : Wizard σ) (u : Option Step) :
    ∀ (rem fl : List (Step × FormClass)) (condc : CondCache) (cleanc : CleanCache)
      (res : List Step) (s : Step) (v : Bool),
      alookup condc s = some v →
      alookup (get_form_list_go w u rem fl condc cleanc res).condition_cache s = some v := by
  intro rem
  induction rem with
  | nil => intro fl _ _ _ s v hv; simpa [get_form_list_go] using hv
  | cons q rest ih =>
      intro fl condc cleanc res s v hv
      obtain ⟨step, fc⟩ := q
      simp only [get_form_list_go]
      split
      · simpa using hv
      · cases hc : alookup condc step with
        | some b => exact ih _ _ _ _ _ _ hv
        | none => exact ih _ _ _ _ _ _ (alookup_append_some _ hv)

theorem get_form_list_go_resolved_mono {σ : Type} (w : Wizard σ) (u : Option Step) :
    ∀ (rem fl : List (Step × FormClass)) (condc : CondCache) (cleanc : CleanCache)
      (res : List Step) (s : Step), s ∈ res →
      s ∈ (get_form_list_go w u rem fl condc cleanc res).resolved := by
  intro rem
  induction rem with
  | nil => intro fl _ _ _ s hs; simpa [get_form_list_go] using hs
  | cons q rest ih =>
      intro fl condc cleanc res s hs
      obtain ⟨step, fc⟩ := q
      simp only [get_form_list_go]
      split
      · simpa using hs
      · cases hc : alookup condc step with
        | some b => exact ih _ _ _ _ _ hs
        | none => exact ih _ _ _ _ _ (by simp [hs])

theorem get_form_list_go_resolved_new {σ : Type} (w : Wizard σ) (u : Option Step) :
    ∀ (rem fl : List (Step × FormClass)) (condc : CondCache) (cleanc : CleanCache)
      (res : List Step) (s : Step),
      s ∈ (get_form_list_go w u rem fl condc cleanc res).resolved →
      s ∈ res ∨ alookup condc s = none := by
  intro rem
  induction rem with
  | nil => intro fl _ _ _ s hs; simp [get_form_list_go] at hs; exact Or.inl hs
  | cons q rest ih =>
      intro fl condc cleanc res s hs
      obtain ⟨step, fc⟩ := q
      simp only [get_form_list_go] at hs
      split at hs
      · exact Or.inl hs
      · revert hs
        cases hc : alookup condc step with
        | some b =>
            intro hs
            exact ih _ _ _ _ _ hs
        | none =>
            intro hs
            rcases ih _ _ _ _ _ hs with h1 | h1
            · rcases List.mem_append.mp h1 with h2 | h2
              · exact Or.inl h2
              · right
                obtain rfl : s = step := by simpa using h2
                exact hc
            · exact Or.inr (alookup_append_none_left h1)

theorem stepsBefore_not_stop {u : Option Step} :
    ∀ {l : List (Step × FormClass)} {p : Step × FormClass},
      p ∈ stepsBefore u l → ¬ u = some p.1 := by
  intro l
  induction l with
  | nil => intro p hp; simp [stepsBefore] at hp
  | cons q rest ih =>
      intro p hp
      simp only [stepsBefore] at hp
      split at hp
      · simp at hp
      · rcases List.mem_cons.mp hp with h1 | h1
        · subst h1; assumption
        · exact ih h1

theorem get_form_list_go_spec {σ : Type} (w : Wizard σ) (u : Option Step) :
    ∀ (rem fl : List (Step × FormClass)) (condc : CondCache) (cleanc : CleanCache)
      (res : List Step),
      (get_form_list_go w u rem fl condc cleanc res).form_list
        = fl ++ (stepsBefore u rem).filter
            (fun p =>
              (alookup (get_form_list_go w u rem fl condc cleanc res).condition_cache
                p.1).getD false) := by
  intro rem
  induction rem with
  | nil => intro fl _ _ _; simp [get_form_list_go, stepsBefore]
  | cons q rest ih =>
      intro fl condc cleanc res
      obtain ⟨step, fc⟩ := q
      simp only [get_form_list_go, stepsBefore]
      split
      · simp
      · cases hc : alookup condc step with
        | some b =>
            have hfinal :
                alookup (get_form_list_go w u rest
                  (if b then fl ++ [(step, fc)] else fl) condc cleanc res).condition_cache
                  step = some b :=
              get_form_list_go_cond_mono w u _ _ _ _ _ _ _ hc
            rw [List.filter_cons]
            simp only [hfinal, Option.getD_some]
            cases b with
            | true =>
                simp only [eq_self_iff_true, if_true]
                rw [ih (fl ++ [(step, fc)]) condc cleanc res]
                simp [List.append_assoc]
            | false =>
                simp only [Bool.false_eq_true, if_false]
                rw [ih fl condc cleanc res]
        | none =>
            have hcache :
                alookup (condc ++ [(step, (resolve_condition w fl cleanc
                  ((alookup w.condition_dict step).getD (Condition.const true))).1)]) step
                  = some (resolve_condition w fl cleanc
                    ((alookup w.condition_dict step).getD (Condition.const true))).1 := by
              rw [alookup_append_none _ hc]
              simp [alookup]
            have hfinal :=
              get_form_list_go_cond_mono w u rest
                (if (resolve_condition w fl cleanc
                    ((alookup w.condition_dict step).getD (Condition.const true))).1
                  then fl ++ [(step, fc)] else fl)
                _ (resolve_condition w fl cleanc
                    ((alookup w.condition_dict step).getD (Condition.const true))).2
                (res ++ [step]) step _ hcache
            rw [List.filter_cons]
            simp only [hfinal, Option.getD_some]
            cases hb : (resolve_condition w fl cleanc
                ((alookup w.condition_dict step).getD (Condition.const true))).1 with
            | true =>
                simp only [eq_self_iff_true, if_true]
                rw [ih (fl ++ [(step, fc)]) _ _ (res ++ [step])]
                simp [List.append_assoc]
            | false =>
                simp only [Bool.false_eq_true, if_false]
                rw [ih fl _ _ (res ++ [step])]

/- ----------------------------------------------------------------------
   Claim theorems
   ---------------------------------------------------------------------- -/

/-- Claim C1: in the get_form_list loop, when a step with an uncached
arg.func (function-binding-library) condition is reached and the
accumulated cleaned data of the steps included so far is incomplete
(the accumulation yields none), the condition is treated as true: the
step is cached as true and included in the returned step list. -/
theorem fail_open_condition {σ : Type} (w : Wizard σ) (u : Option Step)
    (rest fl : List (Step × FormClass)) (condc : CondCache) (cleanc : CleanCache)
    (res : List Step) (s : Step) (fc : FormClass) (f : Dict → Bool)
    (h1 : ¬ u = some s) (h2 : alookup condc s = none)
    (h3 : alookup w.condition_dict s = some (Condition.argFunc f))
    (h4 : (get_cleaned_data w cleanc (fl.map Prod.fst)).1 = none) :
    (s, fc) ∈ (get_form_list_go w u ((s, fc) :: rest) fl condc cleanc res).form_list
    ∧ alookup (get_form_list_go w u ((s, fc) :: rest) fl condc cleanc res).condition_cache s
        = some true := by
  have hstep :
      get_form_list_go w u ((s, fc) :: rest) fl condc cleanc res
        = get_form_list_go w u rest (fl ++ [(s, fc)]) (condc ++ [(s, true)])
            (get_cleaned_data w cleanc (fl.map Prod.fst)).2 (res ++ [s]) := by
    simp only [get_form_list_go, if_neg h1, h2, h3, Option.getD_some, resolve_condition, h4,
      if_true]
  refine ⟨?_, ?_⟩
  · rw [hstep]
    exact get_form_list_go_mem_mono w u rest _ _ _ _ (s, fc) (by simp)
  · rw [hstep]
    refine get_form_list_go_cond_mono w u rest _ _ _ _ s true ?_
    rw [alookup_append_none _ h2]
    simp [alookup]

/-- Witness for C1: step B carries an arg.func condition that would
evaluate to false, step A is included but has not validated, so the
accumulation is incomplete and B is nonetheless included. -/
theorem fail_open_condition_witness :
    ("B", 1) ∈ (get_form_list_go wizFailOpen none [("B", 1)] [("A", 0)]
        [("A", true)] [] ["A"]).form_list
    ∧ alookup (get_form_list_go wizFailOpen none [("B", 1)] [("A", 0)]
        [("A", true)] [] ["A"]).condition_cache "B" = some true :=
  fail_open_condition wizFailOpen none [] [("A", 0)] [("A", true)] [] ["A"] "B" 1
    (fun _ => false) (by decide) (by decide) rfl (by decide)

/-- Claim C9: a declared step with no entry in condition_dict defaults to
condition true: when reached uncached it is cached as true and included
in the returned step list. -/
theorem default_condition_true {σ : Type} (w : Wizard σ) (u : Option Step)
    (rest fl : List (Step × FormClass)) (condc : CondCache) (cleanc : CleanCache)
    (res : List Step) (s : Step) (fc : FormClass)
    (h1 : ¬ u = some s) (h2 : alookup condc s = none)
    (h3 : alookup w.condition_dict s = none) :
    (s, fc) ∈ (get_form_list_go w u ((s, fc) :: rest) fl condc cleanc res).form_list
    ∧ alookup (get_form_list_go w u ((s, fc) :: rest) fl condc cleanc res).condition_cache s
        = some true := by
  have hstep :
      get_form_list_go w u ((s, fc) :: rest) fl condc cleanc res
        = get_form_list_go w u rest (fl ++ [(s, fc)]) (condc ++ [(s, true)])
            cleanc (res ++ [s]) := by
    simp only [get_form_list_go, if_neg h1, h2, h3, Option.getD_none, resolve_condition,
      if_true]
  refine ⟨?_, ?_⟩
  · rw [hstep]
    exact get_form_list_go_mem_mono w u rest _ _ _ _ (s, fc) (by simp)
  · rw [hstep]
    refine get_form_list_go_cond_mono w u rest _ _ _ _ s true ?_
    rw [alookup_append_none _ h2]
    simp [alookup]

/-- Witness for C9: step A has no condition entry and is included with a
cached true result. -/
theorem default_condition_true_witness :
    ("A", 0) ∈ (get_form_list_go wizPlain none [("A", 0), ("B", 1)] [] [] [] []).form_list
    ∧ alookup (get_form_list_go wizPlain none [("A", 0), ("B", 1)] []
        [] [] []).condition_cache "A" = some true :=
  default_condition_true wizPlain none [("B", 1)] [] [] [] [] "A" 0
    (by decide) rfl rfl

/-- Claim C10: a plain (non arg.func) callable condition is invoked with
the wizard instance itself: its cached result is the callable applied to
the self object, it is always resolved when uncached (never the fail-open
path, whatever the cleaned data), its resolution reads no cleaned data,
and the step is included exactly when the callable returns true. -/
theorem plain_callable_condition {σ : Type} (w : Wizard σ) (u : Option Step)
    (rest fl : List (Step × FormClass)) (condc : CondCache) (cleanc : CleanCache)
    (res : List Step) (s : Step) (fc : FormClass) (f : σ → Bool)
    (h1 : ¬ u = some s) (h2 : alookup condc s = none)
    (h3 : alookup w.condition_dict s = some (Condition.callable f)) :
    alookup (get_form_list_go w u ((s, fc) :: rest) fl condc cleanc res).condition_cache s
        = some (f w.self_obj)
    ∧ s ∈ (get_form_list_go w u ((s, fc) :: rest) fl condc cleanc res).resolved
    ∧ (f w.self_obj = true →
        (s, fc) ∈ (get_form_list_go w u ((s, fc) :: rest) fl condc cleanc res).form_list)
    ∧ (get_form_list_go w u [(s, fc)] fl condc cleanc res).cleaned_cache = cleanc := by
  have hstep :
      get_form_list_go w u ((s, fc) :: rest) fl condc cleanc res
        = get_form_list_go w u rest
            (if f w.self_obj then fl ++ [(s, fc)] else fl)
            (condc ++ [(s, f w.self_obj)]) cleanc (res ++ [s]) := by
    simp only [get_form_list_go, if_neg h1, h2, h3, Option.getD_some, resolve_condition]
  refine ⟨?_, ?_, ?_, ?_⟩
  · rw [hstep]
    refine get_form_list_go_cond_mono w u rest _ _ _ _ s (f w.self_obj) ?_
    rw [alookup_append_none _ h2]
    simp [alookup]
  · rw [hstep]
    exact get_form_list_go_resolved_mono w u rest _ _ _ _ s (by simp)
  · intro hf
    rw [hstep, hf]
    simp only [eq_self_iff_true, if_true]
    exact get_form_list_go_mem_mono w u rest _ _ _ _ (s, fc) (by simp)
  · simp only [get_form_list_go, if_neg h1, h2, h3, Option.getD_some, resolve_condition]

/-- Witness for C10: the self object is false, so step B with a plain
callable identity condition is resolved to false (not failed open), even
though step A has not validated. -/
theorem plain_callable_condition_witness :
    alookup (get_form_list_go wizCallable none [("B", 1)] [("A", 0)]
        [("A", true)] [] ["A"]).condition_cache "B" = some false
    ∧ "B" ∈ (get_form_list_go wizCallable none [("B", 1)] [("A", 0)]
        [("A", true)] [] ["A"]).resolved
    ∧ (false = true →
        ("B", 1) ∈ (get_form_list_go wizCallable none [("B", 1)] [("A", 0)]
          [("A", true)] [] ["A"]).form_list)
    ∧ (get_form_list_go wizCallable none [("B", 1)] [("A", 0)]
        [("A", true)] [] ["A"]).cleaned_cache = [] :=
  plain_callable_condition wizCallable none [] [("A", 0)] [("A", true)] [] ["A"] "B" 1
    (fun b => b) (by decide) (by decide) rfl

/-- Claim C2: accumulation over an ordered step list returns the
incomplete signal (none) whenever some step has the not-validated marker,
and otherwise the left-to-right union of the per-step cleaned data, later
steps overriding earlier ones on key collision. -/
theorem accumulate_spec {σ : Type} (w : Wizard σ) (cache : CleanCache)
    (steps : List Step) :
    ((∃ s ∈ steps, cleaned_for w cache s = none) →
        (get_cleaned_data w cache steps).1 = none)
    ∧ ((∀ s ∈ steps, cleaned_for w cache s ≠ none) →
        (get_cleaned_data w cache steps).1
          = some (steps.foldl
              (fun acc s => dupdate acc ((cleaned_for w cache s).getD [])) [])) :=
  ⟨fun h => get_cleaned_data_go_incomplete w steps [] cache h,
   fun h => get_cleaned_data_go_complete w steps [] cache h⟩

/-- Witness for C2: merge precedence (A cleans to x=1, B cleans to
x=2, y=3, and accumulate [A, B] yields x=2, y=3), and the short-circuit
(with a not-validated step in the list, accumulation is incomplete). -/
theorem accumulate_spec_witness :
    ((∀ s ∈ ["A", "B"], cleaned_for wizMerge [] s ≠ none)
      ∧ (get_cleaned_data wizMerge [] ["A", "B"]).1 = some [("x", 2), ("y", 3)])
    ∧ ((∃ s ∈ ["A", "B"], cleaned_for wizFailOpen [] s = none)
      ∧ (get_cleaned_data wizFailOpen [] ["A", "B"]).1 = none) :=
  ⟨⟨by decide, ((accumulate_spec wizMerge [] ["A", "B"]).2 (by decide)).trans (by decide)⟩,
   ⟨by decide, (accumulate_spec wizFailOpen [] ["A", "B"]).1 (by decide)⟩⟩

/-- Claim C3: get_form_list with a stopping step returns, in declaration
order, exactly the declared steps strictly before the stop whose cached
or newly resolved condition result is true, and never the stop step
itself nor any step declared at or after it. -/
theorem evaluate_until_spec {σ : Type} (w : Wizard σ) (condc : CondCache)
    (cleanc : CleanCache) (S : Step) :
    (get_form_list w condc cleanc (some S)).form_list
      = (stepsBefore (some S) w.form_list).filter
          (fun p =>
            (alookup (get_form_list w condc cleanc (some S)).condition_cache p.1).getD false)
    ∧ S ∉ (get_form_list w condc cleanc (some S)).form_list.map Prod.fst := by
  have hspec := get_form_list_go_spec w (some S) w.form_list [] condc cleanc []
  constructor
  · simpa [get_form_list] using hspec
  · intro hmem
    obtain ⟨p, hp, hps⟩ := List.mem_map.mp hmem
    have hp' : p ∈ (stepsBefore (some S) w.form_list).filter
        (fun q =>
          (alookup (get_form_list_go w (some S) w.form_list [] condc cleanc
            []).condition_cache q.1).getD false) := by
      have : p ∈ (get_form_list w condc cleanc (some S)).form_list := hp
      rw [get_form_list, hspec] at this
      simpa using this
    exact stepsBefore_not_stop (List.mem_of_mem_filter hp') (by rw [hps])

/-- Witness for C3: the step list stopping at B is the filtered prefix
before B and does not contain B. -/
theorem evaluate_until_spec_witness :
    (get_form_list wizPlain [] [] (some "B")).form_list
      = (stepsBefore (some "B") wizPlain.form_list).filter
          (fun p =>
            (alookup (get_form_list wizPlain [] [] (some "B")).condition_cache p.1).getD false)
    ∧ "B" ∉ (get_form_list wizPlain [] [] (some "B")).form_list.map Prod.fst :=
  evaluate_until_spec wizPlain [] [] "B"

/-- Claim C4 counterexample: with two unconditional declared steps A and
B, a first call stopping at B caches the condition of A; a second call on
the same instance with a different stop (no stop at all) does not resolve
A again: A is not in the resolved set of the second call even though A is
declared before the new stop, and its cached entry survives. -/
theorem condition_cache_reused_counterexample :
    "A" ∈ (stepsBefore none wizPlain.form_list).map Prod.fst
    ∧ alookup (get_form_list wizPlain [] [] (some "B")).condition_cache "A" = some true
    ∧ "A" ∉ (get_form_list wizPlain
        (get_form_list wizPlain [] [] (some "B")).condition_cache
        (get_form_list wizPlain [] [] (some "B")).cleaned_cache none).resolved
    ∧ "B" ∈ (get_form_list wizPlain
        (get_form_list wizPlain [] [] (some "B")).condition_cache
        (get_form_list wizPlain [] [] (some "B")).cleaned_cache none).resolved := by
  decide

/-- Claim C4 as amended: the condition cache is never rebuilt within one
wizard instance, whatever the stopping step of a call: every cached entry
survives the call with its value, and only steps with no cached entry are
resolved during the call. -/
theorem condition_cache_persists {σ : Type} (w : Wizard σ) (condc : CondCache)
    (cleanc : CleanCache) (until_ : Option Step) :
    (∀ s v, alookup condc s = some v →
        alookup (get_form_list w condc cleanc until_).condition_cache s = some v)
    ∧ (∀ s, s ∈ (get_form_list w condc cleanc until_).resolved →
        alookup condc s = none) := by
  constructor
  · intro s v hv
    exact get_form_list_go_cond_mono w until_ w.form_list [] condc cleanc [] s v hv
  · intro s hs
    rcases get_form_list_go_resolved_new w until_ w.form_list [] condc cleanc [] s hs
      with h | h
    · simp at h
    · exact h

/-- Witness for the amended C4: a stale cached false entry for step A is
still reused by a later call with a different stop. -/
theorem condition_cache_persists_witness :
    alookup ([("A", false)] : CondCache) "A" = some false
    ∧ alookup (get_form_list wizPlain [("A", false)] [] none).condition_cache "A"
        = some false :=
  ⟨by decide,
   (condition_cache_persists wizPlain [("A", false)] [] none).1 "A" false (by decide)⟩

/-- Claim C5: querying the cleaned data of a step twice with no new
submission returns the identical result both times, mutates the cache
only on the first query, performs the underlying framework clean at most
once over both calls (exactly once when the step was uncached, on the
first call), and the second call never performs it, a cached
not-validated outcome included. -/
theorem cleaned_data_for_idempotent {σ : Type} (w : Wizard σ) (cache : CleanCache)
    (step : Step) :
    (get_cleaned_data_for_step w (get_cleaned_data_for_step w cache step).2.1 step).1
      = (get_cleaned_data_for_step w cache step).1
    ∧ (get_cleaned_data_for_step w (get_cleaned_data_for_step w cache step).2.1 step).2.1
      = (get_cleaned_data_for_step w cache step).2.1
    ∧ (get_cleaned_data_for_step w (get_cleaned_data_for_step w cache step).2.1 step).2.2 = 0
    ∧ (get_cleaned_data_for_step w cache step).2.2
        + (get_cleaned_data_for_step w (get_cleaned_data_for_step w cache
            step).2.1 step).2.2 ≤ 1
    ∧ (alookup cache step = none → (get_cleaned_data_for_step w cache step).2.2 = 1) := by
  unfold get_cleaned_data_for_step
  cases h : alookup cache step with
  | some cached => simp [h]
  | none =>
      have h2 : alookup (cache ++ [(step, w.clean_step step)]) step
          = some (w.clean_step step) := by
        rw [alookup_append_none _ h]
        simp [alookup]
      simp [h, h2]

/-- Witness for C5: step A never validates; the not-validated outcome is
cached by the first call and the second call does no clean work. -/
theorem cleaned_data_for_idempotent_witness :
    (get_cleaned_data_for_step wizPlain (get_cleaned_data_for_step wizPlain []
        "A").2.1 "A").1
      = (get_cleaned_data_for_step wizPlain [] "A").1
    ∧ (get_cleaned_data_for_step wizPlain (get_cleaned_data_for_step wizPlain []
        "A").2.1 "A").2.2 = 0
    ∧ (get_cleaned_data_for_step wizPlain [] "A").2.2 = 1 :=
  ⟨(cleaned_data_for_idempotent wizPlain [] "A").1,
   (cleaned_data_for_idempotent wizPlain [] "A").2.2.1,
   (cleaned_data_for_idempotent wizPlain [] "A").2.2.2.2 (by decide)⟩

/-- Claim C6: when the framework completion raises (the bound function
failed) and raise_run_errors is false, render_done returns the
revalidation-failure rendering for the current step with the exception
appended as a form-level error, and no success outcome; when
raise_run_errors is true the same exception propagates unchanged. -/
theorem render_done_run_failure (current_step : Step) (form : DjForm) (exc : Err) :
    render_done false current_step form (Except.error exc)
      = Except.ok (WizardResponse.revalidationFailure current_step
          ⟨form.non_field_errors ++ [exc]⟩)
    ∧ (∀ r, render_done false current_step form (Except.error exc)
        ≠ Except.ok (WizardResponse.success r))
    ∧ render_done true current_step form (Except.error exc) = Except.error exc := by
  refine ⟨rfl, ?_, rfl⟩
  intro r h
  simp [render_done] at h

/-- Witness for C6: a concrete run failure is contained or re-raised
according to raise_run_errors. -/
theorem render_done_run_failure_witness :
    render_done false "A" ⟨[]⟩ (Except.error (Err.other "boom"))
      = Except.ok (WizardResponse.revalidationFailure "A" ⟨[Err.other "boom"]⟩)
    ∧ render_done true "A" ⟨[]⟩ (Except.error (Err.other "boom"))
      = Except.error (Err.other "boom") :=
  ⟨(render_done_run_failure "A" ⟨[]⟩ (Err.other "boom")).1,
   (render_done_run_failure "A" ⟨[]⟩ (Err.other "boom")).2.2⟩

/-- Claim C7: the installed clean runs the original clean to get the
cleaned data, invokes the function validators against the fresh merged
mapping of defaults and cleaned data, and on success returns the original
cleaned data unchanged; any successful result is that original data, and
a validator failure turns the overall clean into an error. -/
theorem form_clean_spec (func : ArgFunc) (default_args cleaned : Dict) :
    (func.pre_func (dupdate default_args cleaned) = Except.ok () →
        get_form_clean func (Except.ok cleaned) default_args = Except.ok cleaned)
    ∧ (∀ res, get_form_clean func (Except.ok cleaned) default_args = Except.ok res →
        res = cleaned)
    ∧ (∀ e, func.pre_func (dupdate default_args cleaned) = Except.error e →
        ∃ e2, get_form_clean func (Except.ok cleaned) default_args = Except.error e2)
    ∧ (∀ e, get_form_clean func (Except.error e) default_args = Except.error e) := by
  refine ⟨?_, ?_, ?_, ?_⟩
  · intro h
    simp [get_form_clean, only_raise_validation_error, h]
  · intro res h
    cases hp : func.pre_func (dupdate default_args cleaned) with
    | ok u =>
        simp [get_form_clean, only_raise_validation_error, hp] at h
        exact h.symm
    | error e =>
        cases he : e.isValidation <;>
          simp [get_form_clean, only_raise_validation_error, hp, he] at h
  · intro e h
    cases he : e.isValidation
    · exact ⟨Err.validation e.msg (some e),
        by simp [get_form_clean, only_raise_validation_error, h, he]⟩
    · exact ⟨e, by simp [get_form_clean, only_raise_validation_error, h, he]⟩
  · intro e
    rfl

/-- Witness for C7: passing validators leave the cleaned data unchanged. -/
theorem form_clean_spec_witness :
    get_form_clean funcOk (Except.ok [("x", 1)]) [("y", 2)] = Except.ok [("x", 1)] :=
  (form_clean_spec funcOk [("y", 2)] [("x", 1)]).1 rfl

/-- Claim C8: when a field-level or form-level validator invocation
raises, the adapter raises the original exception unchanged when it is
already a validation error, and otherwise a validation error carrying the
original message with the original exception as its cause. -/
theorem validator_error_wrapping (func : ArgFunc) (label : String) (v : Value)
    (d default_args : Dict) (e : Err) :
    (func.pre_func [(label, v)] = Except.error e → e.isValidation = true →
        get_field_validator func label v = Except.error e)
    ∧ (func.pre_func [(label, v)] = Except.error e → e.isValidation = false →
        get_field_validator func label v
          = Except.error (Err.validation e.msg (some e)))
    ∧ (func.pre_func (dupdate default_args d) = Except.error e → e.isValidation = true →
        get_form_clean func (Except.ok d) default_args = Except.error e)
    ∧ (func.pre_func (dupdate default_args d) = Except.error e → e.isValidation = false →
        get_form_clean func (Except.ok d) default_args
          = Except.error (Err.validation e.msg (some e))) := by
  refine ⟨?_, ?_, ?_, ?_⟩
  · intro h hv
    simp [get_field_validator, only_raise_validation_error, h, hv]
  · intro h hv
    simp [get_field_validator, only_raise_validation_error, h, hv]
  · intro h hv
    simp [get_form_clean, only_raise_validation_error, h, hv]
  · intro h hv
    simp [get_form_clean, only_raise_validation_error, h, hv]

/-- Witness for C8: a non-validation failure is wrapped as a validation
error with the original exception as its cause. -/
theorem validator_error_wrapping_witness :
    get_field_validator funcBoom "x" 0
      = Except.error (Err.validation "boom" (some (Err.other "boom"))) :=
  (validator_error_wrapping funcBoom "x" 0 [] [] (Err.other "boom")).2.1 rfl rfl

end Djarg
